import Mathlib

/-!
Verification of the picture-reconciliation core of a small social-network
program (`main.py`, with the HTTP projection in `api.py`).

Python strings are embedded as `List Char` (Python compares and sorts
strings by code point, exactly the order on `Char`).  Python's
`str.split(sep)` for the fixed separator `" #"` is embedded as `splitTags`,
Python's `sorted` as the stable sort `sortStrs` with the lexicographic
comparator `strLe` (Python's sort is also stable, and `strLe` is a total
order, so the ascending sorted permutation is unique and the two agree).
The filesystem under `pictures/<user_id>/` is embedded as a tree of named
directories and files, relative-path strings are joined with `/` dropping
empty segments exactly as `pathlib.PurePosixPath` does, and the `peewee`
picture table is embedded as a list of rows carrying their integer row id.
-/

/-- A Python string, as its list of characters. -/
abbrev PyStr := List Char

/-- Python `s.split(" #")`: scan left to right, cut at every occurrence of
the two-character separator `" #"` (the cut consumes both characters).
`splitTags []` is `[[]]` just as `"".split(" #") == [""]` in Python. -/
def splitTags : PyStr → List PyStr
  | [] => [[]]
  | [c] => [[c]]
  | c1 :: c2 :: rest =>
    if c1 = ' ' ∧ c2 = '#' then [] :: splitTags rest
    else (c1 :: (splitTags (c2 :: rest)).headD []) :: (splitTags (c2 :: rest)).tail

/-- Whether the separator `" #"` occurs anywhere in the string. -/
def hasSep : PyStr → Bool
  | [] => false
  | [_] => false
  | c1 :: c2 :: rest => (decide (c1 = ' ') && decide (c2 = '#')) || hasSep (c2 :: rest)

/-- Lexicographic (code-point) comparison of Python strings: `a <= b`. -/
def strLe : PyStr → PyStr → Bool
  | [], _ => true
  | _ :: _, [] => false
  | a :: as, b :: bs => if a < b then true else if b < a then false else strLe as bs

/-- Insert into a `strLe`-sorted list, keeping it sorted. -/
def insertStr (a : PyStr) : List PyStr → List PyStr
  | [] => [a]
  | b :: bs => if strLe a b then a :: b :: bs else b :: insertStr a bs

/-- Python `sorted` on a list of strings (ascending, stable). -/
def sortStrs : List PyStr → List PyStr
  | [] => []
  | a :: as => insertStr a (sortStrs as)

/-- Embedding of `deconstruct_tags` (`main.py` lines 333-339): prepend a
space, split on `" #"`, drop the first piece, sort the rest (Python
`sorted`, lexicographic ascending). -/
def deconstruct_tags (tags : PyStr) : List PyStr :=
  let tags1 := ' ' :: tags
  let tags_list := splitTags tags1
  sortStrs (tags_list.drop 1)

/-- Sortedness for the comparator `strLe`, as a `Pairwise` statement. -/
abbrev StrSorted (l : List PyStr) : Prop := l.Pairwise (fun x y => strLe x y = true)

/-- Join a list of `#`-prefixed tags with single spaces into one raw tag
string, e.g. `["#b","#a"] -> "#b #a"`. -/
def mkRawTags : List PyStr → PyStr
  | [] => []
  | [t] => t
  | t :: ts => t ++ ' ' :: mkRawTags ts

/-- The string of a relative `pathlib` path with the given parts:
segments joined by `/`; `PurePosixPath` drops empty parts.  (It keeps `.`
segments, which `PurePosixPath` also collapses; no `.`-named entry exists
on a realizable directory tree and no `.` segment is a plain name, so the
divergence is outside the scope in which the function is applied.) -/
def joinPath (segs : List PyStr) : PyStr :=
  List.intercalate ['/'] (segs.filter (fun s => !s.isEmpty))

/-- Embedding of `pathlib`'s `item.suffix == ".png"`: the name ends in
`".png"` and has a nonempty stem (`".png"` itself has suffix `""`). -/
def isPng (name : PyStr) : Bool :=
  decide (4 < name.length) && decide (name.drop (name.length - 4) = ['.', 'p', 'n', 'g'])

mutual
/-- A filesystem entry: a file or a directory, with its name. -/
inductive FSTree : Type where
  | file : PyStr → FSTree
  | dir : PyStr → FSList → FSTree
/-- The ordered contents of a directory (the order `iterdir` yields). -/
inductive FSList : Type where
  | nil : FSList
  | cons : FSTree → FSList → FSList
end

/-- A `(user_id, relative path string, file name)` triple, the element type
of the lists `list_user_images` and `reconcile_images` build. -/
abbrev ImageTriple := PyStr × PyStr × PyStr

mutual
/-- Embedding of the helper `find_images` of `list_user_images` (`main.py`
lines 411-421), on one entry: directories are recursed into, files are kept
when their `pathlib` suffix is `.png`; the recorded path is relative to the
scanned root `pictures/<user_id>` (the accumulated prefix `pfx`). -/
def findImagesTree (user_id : PyStr) (pfx : List PyStr) : FSTree → List ImageTriple
  | .file name =>
    if isPng name then [(user_id, joinPath (pfx ++ [name]), name)] else []
  | .dir d children => findImagesList user_id (pfx ++ [d]) children
/-- Embedding of `find_images` on a directory listing, in `iterdir` order. -/
def findImagesList (user_id : PyStr) (pfx : List PyStr) : FSList → List ImageTriple
  | .nil => []
  | .cons t rest => findImagesTree user_id pfx t ++ findImagesList user_id pfx rest
end

/-- Embedding of `list_user_images` (`main.py` lines 408-439): `none` means
the directory `pictures/<user_id>` does not exist, in which case the
function prints a message and returns the empty list (no exception, no
failure value); otherwise it scans the directory tree. -/
def list_user_images (user_id : PyStr) (userDir : Option FSList) : List ImageTriple :=
  match userDir with
  | none => []
  | some items => findImagesList user_id [] items

mutual
/-- Whether this entry contains a file `name` at the directory chain
`segs` below itself. -/
def treeHasFile : FSTree → List PyStr → PyStr → Bool
  | .file n, segs, name => decide (segs = []) && decide (n = name)
  | .dir d children, segs, name =>
    match segs with
    | [] => false
    | s :: rest => decide (s = d) && listHasFile children rest name
/-- Whether this directory listing contains a file `name` at chain `segs`. -/
def listHasFile : FSList → List PyStr → PyStr → Bool
  | .nil, _, _ => false
  | .cons t rest, segs, name => treeHasFile t segs name || listHasFile rest segs name
end

/-- A row of the `pictures` table, as `add_picture` inserts it. -/
structure PictureRecord where
  picture_id : PyStr
  user_id : PyStr
  tags : PyStr
deriving DecidableEq

/-- The triple `reconcile_images` (`main.py` lines 453-457) builds for one
database record: the tag directories, then `<picture_id>.png`. -/
def dbImageTriple (user_id : PyStr) (r : PictureRecord) : ImageTriple :=
  (user_id, joinPath (deconstruct_tags r.tags ++ [r.picture_id ++ ".png".data]),
   r.picture_id ++ ".png".data)

/-- The DB-side projection of `reconcile_images`: the records of the user
(`picture_table.find(user_id=user_id)`), each mapped to its triple. -/
def images_in_db (user_id : PyStr) (db : List PictureRecord) : List ImageTriple :=
  (db.filter (fun r => decide (r.user_id = user_id))).map (dbImageTriple user_id)

/-- The set-difference step of `reconcile_images` (`main.py` lines 464-471)
and of `api.py` `Differences.get` lines 78-79: the pair
`(set(disk) - set(db), set(db) - set(disk))`. -/
def reconcile_sets (D B : Finset ImageTriple) : Finset ImageTriple × Finset ImageTriple :=
  (D \ B, B \ D)

/-- Embedding of `reconcile_images` (`main.py` lines 442-471): scan the
disk, project the database records, return both asymmetric differences. -/
def reconcile_images (user_id : PyStr) (disk : Option FSList) (db : List PictureRecord) :
    Finset ImageTriple × Finset ImageTriple :=
  reconcile_sets (list_user_images user_id disk).toFinset (images_in_db user_id db).toFinset

/-- Embedding of `save_picture_to_disk` (`main.py` lines 342-358), as the
disk state it creates under `pictures/<user_id>/`: the chain of tag
directories (`pathlib.Path(*tag_list)`, which drops empty segments) and the
empty marker file `<picture_id>.png` inside them.  The model places the
file at the literal segment chain; this matches the real filesystem
exactly when every kept segment is a plain creatable name (`plainSeg`) and
the file name is slash-free — segments such as `..`, `/x` or `a/b` are
resolved by `pathlib`/the OS away from the literal chain (possibly outside
`pictures/<user_id>/` altogether) and are outside this model's scope, as is
a slash in the picture id (there `open` fails and no file is created). -/
def save_picture_to_disk (_user_id picture_id tags : PyStr) : List PyStr × PyStr :=
  ((deconstruct_tags tags).filter (fun s => !s.isEmpty), picture_id ++ ".png".data)

/-- A plain path segment, creatable on disk as a single directory or file
name exactly as written: nonempty, containing no `/`, and neither of the
special names `.` and `..` (which `pathlib` collapses or the OS resolves
upward instead of creating). -/
def plainSeg (s : PyStr) : Bool :=
  !s.isEmpty && decide ('/' ∉ s) && decide (s ≠ ['.']) && decide (s ≠ ['.', '.'])

/-- The directory listing holding exactly one file, at the given chain of
directories. -/
def singleFileTree : List PyStr → PyStr → FSList
  | [], name => .cons (.file name) .nil
  | d :: rest, name => .cons (.dir d (singleFileTree rest name)) .nil

/-- Python `str.zfill` for non-negative numerals: left-pad with `'0'`. -/
def zfill (w : Nat) (s : PyStr) : PyStr := List.replicate (w - s.length) '0' ++ s

/-- The decimal numeral of a natural number, as Python `str(n)` yields. -/
def natToChars (n : Nat) : PyStr := Nat.toDigits 10 n

/-- Descending insertion, largest first. -/
def insertRowDesc (a : Nat) : List Nat → List Nat
  | [] => [a]
  | b :: bs => if b ≤ a then a :: b :: bs else b :: insertRowDesc a bs

/-- Sort descending: the order `ORDER BY id DESC` yields. -/
def sortRowsDesc : List Nat → List Nat
  | [] => []
  | a :: as => insertRowDesc a (sortRowsDesc as)

/-- Embedding of `picture.select().order_by(picture.id.desc()).limit(1).first()`
(`main.py` line 377) over the row ids of all picture rows: the first row of
the descending order, `none` when the table is empty. -/
def last_picture (rowIds : List Nat) : Option Nat := (sortRowsDesc rowIds).head?

/-- The picture-id allocator inside `add_picture` (`main.py` lines 376-385):
the last row id (0 when no row exists) plus one, zero-padded to width 10.
It is passed the row ids of all picture rows, not only the requesting
user's — the query has no user filter. -/
def next_picture_id (rowIds : List Nat) : PyStr :=
  zfill 10 (natToChars ((last_picture rowIds).getD 0 + 1))

/-- The stored state `add_picture` reads and writes: the `users` table
(its user ids) and the `pictures` table (rows with their integer row id). -/
structure SocialDB where
  users : List PyStr
  pictures : List (Nat × PictureRecord)
deriving DecidableEq

/-- A file created on disk: owning user, directory chain under
`pictures/<user>/`, file name. -/
abbrev DiskFile := PyStr × List PyStr × PyStr

/-- Embedding of `add_picture` (`main.py` lines 361-405).  When the user id
is not in the users table it prints a message and returns `False` before
the allocator runs, leaving database and disk untouched.  Otherwise it
allocates the next picture id, inserts the row (SQLite assigns the next row
id) and then creates the directories and marker file on disk. -/
def add_picture (db : SocialDB) (disk : List DiskFile) (user_id tags : PyStr) :
    Bool × SocialDB × List DiskFile :=
  if user_id ∈ db.users then
    let last_id : Nat := (last_picture (db.pictures.map Prod.fst)).getD 0
    let new_picture_id := next_picture_id (db.pictures.map Prod.fst)
    let newRow : PictureRecord := ⟨new_picture_id, user_id, tags⟩
    let saved := save_picture_to_disk user_id new_picture_id tags
    (true, ⟨db.users, db.pictures ++ [(last_id + 1, newRow)]⟩,
      disk ++ [(user_id, saved.1, saved.2)])
  else (false, db, disk)

theorem strLe_cons_iff {x y : Char} {xs ys : PyStr} :
    strLe (x :: xs) (y :: ys) = true ↔ x < y ∨ (x = y ∧ strLe xs ys = true) := by
  rcases lt_trichotomy x y with h | h | h
  · simp [strLe, h]
  · subst h; simp [strLe, lt_irrefl]
  · simp [strLe, lt_asymm h, h, ne_of_gt h]

theorem strLe_refl (a : PyStr) : strLe a a = true := by
  induction a with
  | nil => rfl
  | cons x xs ih => exact strLe_cons_iff.mpr (Or.inr ⟨rfl, ih⟩)

theorem strLe_total (a b : PyStr) : strLe a b = true ∨ strLe b a = true := by
  induction a generalizing b with
  | nil => left; rfl
  | cons x xs ih =>
    cases b with
    | nil => right; rfl
    | cons y ys =>
      rcases lt_trichotomy x y with h | h | h
      · exact Or.inl (strLe_cons_iff.mpr (Or.inl h))
      · subst h
        rcases ih ys with h2 | h2
        · exact Or.inl (strLe_cons_iff.mpr (Or.inr ⟨rfl, h2⟩))
        · exact Or.inr (strLe_cons_iff.mpr (Or.inr ⟨rfl, h2⟩))
      · exact Or.inr (strLe_cons_iff.mpr (Or.inl h))

theorem strLe_trans {a b c : PyStr} (hab : strLe a b = true) (hbc : strLe b c = true) :
    strLe a c = true := by
  induction a generalizing b c with
  | nil => rfl
  | cons x xs ih =>
    cases b with
    | nil => simp [strLe] at hab
    | cons y ys =>
      cases c with
      | nil => simp [strLe] at hbc
      | cons z zs =>
        rcases strLe_cons_iff.mp hab with h1 | ⟨rfl, h1⟩ <;>
          rcases strLe_cons_iff.mp hbc with h2 | ⟨rfl, h2⟩
        · exact strLe_cons_iff.mpr (Or.inl (lt_trans h1 h2))
        · exact strLe_cons_iff.mpr (Or.inl h1)
        · exact strLe_cons_iff.mpr (Or.inl h2)
        · exact strLe_cons_iff.mpr (Or.inr ⟨rfl, ih h1 h2⟩)

theorem strLe_antisymm {a b : PyStr} (hab : strLe a b = true) (hba : strLe b a = true) :
    a = b := by
  induction a generalizing b with
  | nil =>
    cases b with
    | nil => rfl
    | cons y ys => simp [strLe] at hba
  | cons x xs ih =>
    cases b with
    | nil => simp [strLe] at hab
    | cons y ys =>
      rcases strLe_cons_iff.mp hab with h1 | ⟨rfl, h1⟩
      · rcases strLe_cons_iff.mp hba with h2 | ⟨heq, h2⟩
        · exact absurd h2 (lt_asymm h1)
        · exact absurd (heq ▸ h1) (lt_irrefl _)
      · rcases strLe_cons_iff.mp hba with h2 | ⟨-, h2⟩
        · exact absurd h2 (lt_irrefl _)
        · rw [ih h1 h2]

/-- The comparator `strLe` is exactly "equal or strictly lexicographically
smaller" for Mathlib's lexicographic order on the character lists. -/
theorem strLe_iff_lex (a b : PyStr) :
    strLe a b = true ↔ a = b ∨ List.Lex (· < ·) a b := by
  induction a generalizing b with
  | nil =>
    cases b with
    | nil => simp [strLe]
    | cons y ys =>
      constructor
      · intro _; exact Or.inr List.Lex.nil
      · intro _; rfl
  | cons x xs ih =>
    cases b with
    | nil =>
      constructor
      · intro h; simp [strLe] at h
      · rintro (h | h)
        · exact absurd h (List.cons_ne_nil x xs)
        · exact absurd h (List.Lex.not_nil_right _ _)
    | cons y ys =>
      rw [strLe_cons_iff]
      constructor
      · rintro (h | ⟨rfl, h⟩)
        · exact Or.inr (List.Lex.rel h)
        · rcases (ih ys).mp h with rfl | hl
          · exact Or.inl rfl
          · exact Or.inr (List.Lex.cons hl)
      · rintro (heq | hl)
        · cases heq
          exact Or.inr ⟨rfl, strLe_refl xs⟩
        · cases hl with
          | rel h => exact Or.inl h
          | cons h => exact Or.inr ⟨rfl, (ih ys).mpr (Or.inr h)⟩

theorem insertStr_perm (a : PyStr) (l : List PyStr) : (insertStr a l).Perm (a :: l) := by
  induction l with
  | nil => exact .refl _
  | cons b bs ih =>
    by_cases h : strLe a b = true
    · simp [insertStr, h]
    · simp only [insertStr, h, if_false]
      exact ((ih.cons b).trans (List.Perm.swap a b bs))

theorem sortStrs_perm (l : List PyStr) : (sortStrs l).Perm l := by
  induction l with
  | nil => exact .refl _
  | cons a as ih => exact (insertStr_perm a (sortStrs as)).trans (ih.cons a)

theorem insertStr_sorted {l : List PyStr} (a : PyStr) (h : StrSorted l) :
    StrSorted (insertStr a l) := by
  induction l with
  | nil => simp [insertStr]
  | cons b bs ih =>
    rcases h with - | ⟨hb, hbs⟩
    by_cases hab : strLe a b = true
    · simp only [insertStr, hab, if_true]
      refine .cons ?_ (.cons hb hbs)
      intro c hc
      rcases List.mem_cons.mp hc with rfl | hc
      · exact hab
      · exact strLe_trans hab (hb c hc)
    · simp only [insertStr, hab, if_false]
      refine .cons ?_ (ih hbs)
      intro c hc
      rcases List.mem_cons.mp ((insertStr_perm a bs).mem_iff.mp hc) with heq | hc2
      · rcases strLe_total a b with h1 | h1
        · exact absurd h1 hab
        · exact heq ▸ h1
      · exact hb c hc2

theorem sortStrs_sorted (l : List PyStr) : StrSorted (sortStrs l) := by
  induction l with
  | nil => exact .nil
  | cons a as ih => exact insertStr_sorted a ih

/-- Two sorted permutations for an antisymmetric order are equal, so
`sortStrs` is invariant under permutation of its input. -/
theorem sortStrs_eq_of_perm {l₁ l₂ : List PyStr} (h : l₁.Perm l₂) :
    sortStrs l₁ = sortStrs l₂ := by
  haveI : IsAntisymm PyStr (fun x y => strLe x y = true) := ⟨fun _ _ => strLe_antisymm⟩
  exact List.eq_of_perm_of_sorted
    (((sortStrs_perm l₁).trans h).trans (sortStrs_perm l₂).symm)
    (sortStrs_sorted l₁) (sortStrs_sorted l₂)

theorem splitTags_sep (r : PyStr) : splitTags (' ' :: '#' :: r) = [] :: splitTags r := by
  simp [splitTags]

theorem hasSep_tail {c : Char} {b : PyStr} (h : hasSep (c :: b) = false) : hasSep b = false := by
  cases b with
  | nil => rfl
  | cons c2 r => simp [hasSep] at h; exact h.2

theorem hasSep_hash (b : PyStr) : hasSep ('#' :: b) = hasSep b := by
  cases b with
  | nil => rfl
  | cons c2 r => simp [hasSep]

theorem splitTags_no_sep {b : PyStr} (h : hasSep b = false) : splitTags b = [b] := by
  induction b with
  | nil => rfl
  | cons c rest ih =>
    cases rest with
    | nil => rfl
    | cons c2 r2 =>
      simp only [hasSep, Bool.or_eq_false_iff, Bool.and_eq_false_iff, decide_eq_false_iff_not] at h
      rw [splitTags, if_neg ?hcond, ih h.2]
      · rfl
      case hcond =>
        rintro ⟨h1, h2⟩
        rcases h.1 with h3 | h3
        · exact h3 h1
        · exact h3 h2

theorem splitTags_cat {b : PyStr} (r : PyStr) (h : hasSep b = false) :
    splitTags (b ++ ' ' :: '#' :: r) = b :: splitTags r := by
  induction b with
  | nil => exact splitTags_sep r
  | cons c rest ih =>
    cases rest with
    | nil =>
      show splitTags (c :: ' ' :: '#' :: r) = [c] :: splitTags r
      rw [splitTags, if_neg (by rintro ⟨-, h2⟩; exact absurd h2 (by decide)), splitTags_sep]
      rfl
    | cons c2 r2 =>
      simp only [hasSep, Bool.or_eq_false_iff, Bool.and_eq_false_iff, decide_eq_false_iff_not] at h
      show splitTags (c :: c2 :: (r2 ++ ' ' :: '#' :: r)) = (c :: c2 :: r2) :: splitTags r
      rw [splitTags, if_neg ?hcond]
      · have ihr := ih h.2
        simp only [List.cons_append] at ihr
        rw [ihr]
        rfl
      case hcond =>
        rintro ⟨h1, h2⟩
        rcases h.1 with h3 | h3
        · exact h3 h1
        · exact h3 h2

/-- Joining well-formed `#`-prefixed tags with single spaces and splitting
back isolates every tag: the split is the empty first piece followed by the
tag bodies. -/
theorem splitTags_mkRaw {ts : List PyStr} (hne : ts ≠ [])
    (hw : ∀ t ∈ ts, (∃ b, t = '#' :: b) ∧ hasSep t = false) :
    splitTags (' ' :: mkRawTags ts) = [] :: ts.map List.tail := by
  induction ts with
  | nil => exact absurd rfl hne
  | cons t ts ih =>
    obtain ⟨⟨b, rfl⟩, hsep⟩ := hw _ (List.mem_cons_self _ _)
    have hb : hasSep b = false := (hasSep_hash b) ▸ hsep
    cases ts with
    | nil =>
      show splitTags (' ' :: '#' :: b) = [] :: [b]
      rw [splitTags_sep, splitTags_no_sep hb]
    | cons t2 ts2 =>
      obtain ⟨⟨b2, rfl⟩, -⟩ := hw _ (List.mem_cons_of_mem _ (List.mem_cons_self _ _))
      obtain ⟨m, hm⟩ : ∃ m, mkRawTags (('#' :: b2) :: ts2) = '#' :: m := by
        cases ts2 with
        | nil => exact ⟨b2, rfl⟩
        | cons t3 ts3 => exact ⟨b2 ++ ' ' :: mkRawTags (t3 :: ts3), rfl⟩
      have ih2 := ih (List.cons_ne_nil _ _) (fun t ht => hw t (List.mem_cons_of_mem _ ht))
      rw [hm, splitTags_sep] at ih2
      have hsm : splitTags m = (('#' :: b2) :: ts2).map List.tail := by injection ih2
      show splitTags (' ' :: (('#' :: b) ++ ' ' :: mkRawTags (('#' :: b2) :: ts2))) = _
      rw [hm]
      have hshape : (' ' :: (('#' :: b) ++ ' ' :: '#' :: m)) = ' ' :: '#' :: (b ++ ' ' :: '#' :: m) := by
        simp
      rw [hshape, splitTags_sep, splitTags_cat _ hb, hsm]
      rfl

/-- C2: for every two raw tag strings that are permutations of the same
multiset of `#`-prefixed tags (each tag starting with `#` and containing no
embedded separator `" #"`), the canonicalizer `deconstruct_tags` returns
the identical sequence. -/
theorem deconstruct_tags_perm_invariant (ts₁ ts₂ : List PyStr) (hp : ts₁.Perm ts₂)
    (hw : ∀ t ∈ ts₁, t.head? = some '#' ∧ hasSep t = false) :
    deconstruct_tags (mkRawTags ts₁) = deconstruct_tags (mkRawTags ts₂) := by
  have hex : ∀ u ∈ ts₁, (∃ b, u = '#' :: b) ∧ hasSep u = false := by
    intro u hu
    obtain ⟨h1, h2⟩ := hw u hu
    refine ⟨?_, h2⟩
    cases u with
    | nil => simp at h1
    | cons c b =>
      simp only [List.head?_cons, Option.some.injEq] at h1
      exact ⟨b, by rw [h1]⟩
  rcases hts : ts₁ with - | ⟨t, ts⟩
  · subst hts
    rw [hp.symm.eq_nil]
  · subst hts
    have hne2 : ts₂ ≠ [] := fun h => List.cons_ne_nil t ts (h ▸ hp).eq_nil
    have hw2 : ∀ u ∈ ts₂, (∃ b, u = '#' :: b) ∧ hasSep u = false :=
      fun u hu => hex u (hp.symm.subset hu)
    show sortStrs ((splitTags (' ' :: mkRawTags (t :: ts))).drop 1) =
      sortStrs ((splitTags (' ' :: mkRawTags ts₂)).drop 1)
    rw [splitTags_mkRaw (List.cons_ne_nil t ts) hex, splitTags_mkRaw hne2 hw2]
    exact sortStrs_eq_of_perm (hp.map List.tail)

/-- Witness for C2 at the spec's example: `"#b #a"` and `"#a #b"` yield the
same sequence, namely `["a","b"]`. -/
theorem deconstruct_tags_perm_invariant_witness :
    deconstruct_tags (mkRawTags ["#b".data, "#a".data]) =
      deconstruct_tags (mkRawTags ["#a".data, "#b".data]) ∧
    deconstruct_tags (mkRawTags ["#b".data, "#a".data]) = ["a".data, "b".data] :=
  ⟨deconstruct_tags_perm_invariant _ _ (List.Perm.swap _ _ _) (by decide), by decide⟩

/-- C3: `deconstruct_tags` computes exactly prepend-space / split on `" #"`
/ drop the first piece / sort ascending in the case-sensitive code-point
lexicographic order: its output is a permutation of the dropped split
(so duplicates are preserved) sorted for that order; `"#a #a"` yields
`["a","a"]` and the empty string yields the empty sequence. -/
theorem deconstruct_tags_algorithm :
    (∀ s : PyStr, (deconstruct_tags s).Perm ((splitTags (' ' :: s)).drop 1) ∧
      (deconstruct_tags s).Pairwise (fun a b => a = b ∨ List.Lex (· < ·) a b)) ∧
    deconstruct_tags "#a #a".data = ["a".data, "a".data] ∧
    deconstruct_tags "".data = [] := by
  refine ⟨fun s => ⟨sortStrs_perm _, ?_⟩, by decide, by decide⟩
  exact (sortStrs_sorted _).imp (fun h => (strLe_iff_lex _ _).mp h)

/-- C4 counterexample: for the raw string `"#a #"` the trailing lone `#`
yields an empty token that is not dropped: the result is `["", "a"]` and
the empty token is a member of it. -/
theorem deconstruct_tags_empty_token_kept :
    deconstruct_tags "#a #".data = [[], "a".data] ∧
      ([] : PyStr) ∈ deconstruct_tags "#a #".data :=
  ⟨by decide, by decide⟩

/-- C4 amended: empty tokens produced by the split are preserved, not
dropped — the canonical sequence contains exactly as many empty tokens as
the split produces; `"#a #"` yields `["", "a"]`. -/
theorem deconstruct_tags_empty_tokens_preserved :
    (∀ s : PyStr, (deconstruct_tags s).countP (fun t => t.isEmpty) =
      ((splitTags (' ' :: s)).drop 1).countP (fun t => t.isEmpty)) ∧
    deconstruct_tags "#a #".data = [[], "a".data] :=
  ⟨fun _ => (sortStrs_perm _).countP_eq _, by decide⟩

/-- C10: `deconstruct_tags` discards all text preceding the first
occurrence of the token `" #"`: when the input (with its prepended space)
contains no occurrence at all the result is empty, and a separator-free
leading chunk before the first `" #"` does not influence the result. -/
theorem deconstruct_tags_drops_leading_text :
    (∀ s : PyStr, hasSep (' ' :: s) = false → deconstruct_tags s = []) ∧
    (∀ pre rest : PyStr, hasSep (' ' :: pre) = false →
      deconstruct_tags (pre ++ ' ' :: '#' :: rest) = deconstruct_tags ('#' :: rest)) := by
  constructor
  · intro s h
    show sortStrs ((splitTags (' ' :: s)).drop 1) = []
    rw [splitTags_no_sep h]
    rfl
  · intro pre rest h
    show sortStrs ((splitTags (' ' :: (pre ++ ' ' :: '#' :: rest))).drop 1) =
      sortStrs ((splitTags (' ' :: '#' :: rest)).drop 1)
    have hshape : (' ' :: (pre ++ ' ' :: '#' :: rest)) = (' ' :: pre) ++ ' ' :: '#' :: rest := rfl
    rw [hshape, splitTags_cat _ h, splitTags_sep]
    rfl

/-- Witness for C10: `"abc"` (no `" #"` token) yields `[]`, and `"a #b"`
yields `["b"]` — the leading `"a"` is silently dropped. -/
theorem deconstruct_tags_drops_leading_text_witness :
    deconstruct_tags "abc".data = [] ∧ deconstruct_tags "a #b".data = ["b".data] := by
  constructor
  · exact deconstruct_tags_drops_leading_text.1 "abc".data (by decide)
  · have h := deconstruct_tags_drops_leading_text.2 "a".data "b".data (by decide)
    have e : "a".data ++ ' ' :: '#' :: "b".data = "a #b".data := by decide
    rw [e] at h
    rw [h]
    decide

/-- C6: when the user's directory `pictures/<user_id>` does not exist, the
disk scanner returns the empty list and signals no error — the embedding
is a total function whose `none` branch is the code's early `return []`
(`main.py` lines 425-428). -/
theorem list_user_images_missing_dir (user_id : PyStr) :
    list_user_images user_id none = [] := rfl

theorem insertRowDesc_headD (a : Nat) (l : List Nat) :
    (insertRowDesc a l).headD 0 = max a (l.headD 0) := by
  cases l with
  | nil => simp [insertRowDesc]
  | cons b bs =>
    by_cases h : b ≤ a
    · simp [insertRowDesc, h, max_eq_left h]
    · simp [insertRowDesc, h, max_eq_right (le_of_not_le h)]

theorem sortRowsDesc_headD (l : List Nat) :
    (sortRowsDesc l).headD 0 = l.foldr max 0 := by
  induction l with
  | nil => rfl
  | cons a as ih =>
    show (insertRowDesc a (sortRowsDesc as)).headD 0 = max a (as.foldr max 0)
    rw [insertRowDesc_headD, ih]

/-- C7: the allocator returns the maximum row id over all stored picture
rows (it is handed every row, not only the requesting user's) plus one,
zero-padded to width 10; on an empty table the maximum defaults to 0, so
the first allocated id is `"0000000001"`. -/
theorem next_picture_id_eq_max_succ :
    (∀ rowIds : List Nat,
      next_picture_id rowIds = zfill 10 (natToChars (rowIds.foldr max 0 + 1))) ∧
    next_picture_id [] = "0000000001".data := by
  constructor
  · intro rowIds
    show zfill 10 (natToChars ((last_picture rowIds).getD 0 + 1)) = _
    have hd : (last_picture rowIds).getD 0 = (sortRowsDesc rowIds).headD 0 := by
      cases hs : sortRowsDesc rowIds <;> simp [last_picture, hs]
    rw [hd, sortRowsDesc_headD]
  · decide

/-- C8: when the user id has no record in the users table, `add_picture`
returns `False` and leaves the database and the disk untouched — it
returns before the allocator, the insert and the disk write run. -/
theorem add_picture_user_not_found (db : SocialDB) (disk : List DiskFile)
    (user_id tags : PyStr) (h : user_id ∉ db.users) :
    add_picture db disk user_id tags = (false, db, disk) := by
  simp [add_picture, h]

/-- Witness for C8: adding a picture for an unknown user on the empty
store changes nothing and reports failure. -/
theorem add_picture_user_not_found_witness :
    add_picture ⟨[], []⟩ [] "evan".data "#a".data = (false, ⟨[], []⟩, []) :=
  add_picture_user_not_found ⟨[], []⟩ [] "evan".data "#a".data (by decide)

/-- C1: the pair the reconciler returns is `(D − B, B − D)`: the union of
the two returned sets is the symmetric difference of D and B, their
intersection is empty, and no element of `D ∩ B` appears in either; and
`reconcile_images` computes exactly this pair, with D the disk scan and B
the database projection. -/
theorem reconcile_partition_law :
    (∀ D B : Finset ImageTriple,
      (reconcile_sets D B).1 ∪ (reconcile_sets D B).2 = symmDiff D B ∧
      (reconcile_sets D B).1 ∩ (reconcile_sets D B).2 = ∅ ∧
      (D ∩ B) ∩ ((reconcile_sets D B).1 ∪ (reconcile_sets D B).2) = ∅) ∧
    (∀ (user_id : PyStr) (disk : Option FSList) (db : List PictureRecord),
      reconcile_images user_id disk db =
        reconcile_sets (list_user_images user_id disk).toFinset
          (images_in_db user_id db).toFinset) := by
  constructor
  · intro D B
    refine ⟨?_, ?_, ?_⟩
    · rw [symmDiff_def, Finset.sup_eq_union]
      rfl
    · ext x
      simp only [reconcile_sets, Finset.mem_inter, Finset.mem_sdiff, Finset.not_mem_empty,
        iff_false]
      rintro ⟨⟨h1, h2⟩, h3, h4⟩
      exact h2 h3
    · ext x
      simp only [reconcile_sets, Finset.mem_inter, Finset.mem_union, Finset.mem_sdiff,
        Finset.not_mem_empty, iff_false]
      rintro ⟨⟨h1, h2⟩, h3 | h3⟩
      · exact h3.2 h2
      · exact h3.2 h1
  · intro u d db
    rfl

mutual
theorem mem_findImagesTree (user_id : PyStr) (pfx : List PyStr) (t : FSTree) (x : ImageTriple) :
    x ∈ findImagesTree user_id pfx t ↔
      ∃ segs name, treeHasFile t segs name = true ∧ isPng name = true ∧
        x = (user_id, joinPath (pfx ++ segs ++ [name]), name) := by
  cases t with
  | file n =>
    constructor
    · intro hx
      by_cases hp : isPng n = true
      · simp only [findImagesTree, hp, if_true, List.mem_singleton] at hx
        exact ⟨[], n, by simp [treeHasFile], hp, by simpa using hx⟩
      · simp [findImagesTree, hp] at hx
    · rintro ⟨segs, name, h1, h2, rfl⟩
      simp only [treeHasFile, Bool.and_eq_true, decide_eq_true_eq] at h1
      obtain ⟨rfl, rfl⟩ := h1
      simp [findImagesTree, h2]
  | dir d children =>
    show x ∈ findImagesList user_id (pfx ++ [d]) children ↔ _
    rw [mem_findImagesList user_id (pfx ++ [d]) children x]
    constructor
    · rintro ⟨segs, name, h1, h2, rfl⟩
      exact ⟨d :: segs, name, by simp [treeHasFile, h1], h2, by simp⟩
    · rintro ⟨segs, name, h1, h2, rfl⟩
      cases segs with
      | nil => simp [treeHasFile] at h1
      | cons s rest =>
        simp only [treeHasFile, Bool.and_eq_true, decide_eq_true_eq] at h1
        obtain ⟨rfl, h1⟩ := h1
        exact ⟨rest, name, h1, h2, by simp⟩

theorem mem_findImagesList (user_id : PyStr) (pfx : List PyStr) (l : FSList) (x : ImageTriple) :
    x ∈ findImagesList user_id pfx l ↔
      ∃ segs name, listHasFile l segs name = true ∧ isPng name = true ∧
        x = (user_id, joinPath (pfx ++ segs ++ [name]), name) := by
  cases l with
  | nil => simp [findImagesList, listHasFile]
  | cons t rest =>
    show x ∈ findImagesTree user_id pfx t ++ findImagesList user_id pfx rest ↔ _
    rw [List.mem_append, mem_findImagesTree user_id pfx t x,
      mem_findImagesList user_id pfx rest x]
    constructor
    · rintro (⟨segs, name, h1, h2, h3⟩ | ⟨segs, name, h1, h2, h3⟩)
      · exact ⟨segs, name, by simp [listHasFile, h1], h2, h3⟩
      · exact ⟨segs, name, by simp [listHasFile, h1], h2, h3⟩
    · rintro ⟨segs, name, h1, h2, h3⟩
      simp only [listHasFile, Bool.or_eq_true] at h1
      rcases h1 with h1 | h1
      · exact Or.inl ⟨segs, name, h1, h2, h3⟩
      · exact Or.inr ⟨segs, name, h1, h2, h3⟩
end

/-- C5 counterexample: for user `"7"` and the directory tree holding the
single file `a/b.png`, the scanner returns the path string `"a/b.png"`,
whose first segment is not `"7"`: the recorded path is relative to
`pictures/7/`, not to `pictures/`. -/
theorem list_user_images_path_lacks_user_seg :
    list_user_images "7".data
        (some (.cons (.dir "a".data (.cons (.file "b.png".data) .nil)) .nil)) =
      [("7".data, "a/b.png".data, "b.png".data)] ∧
    ("a/b.png".data).take 2 ≠ "7/".data :=
  ⟨by decide, by decide⟩

/-- C5 amended: the scanner enumerates exactly the files with `pathlib`
suffix `.png` under `pictures/<user_id>/` (recursively); each is recorded
as a triple whose first component is the user id and whose path string is
the file's path relative to `pictures/<user_id>/` — the user id is carried
in the tuple, not as the path's first segment.  (The `api.py` scanner, by
contrast, records paths relative to `pictures/` including the user id.) -/
theorem list_user_images_characterization (user_id : PyStr) (items : FSList)
    (x : ImageTriple) :
    x ∈ list_user_images user_id (some items) ↔
      ∃ segs name, listHasFile items segs name = true ∧ isPng name = true ∧
        x = (user_id, joinPath (segs ++ [name]), name) := by
  show x ∈ findImagesList user_id [] items ↔ _
  rw [mem_findImagesList]
  simp

theorem findImagesList_singleFileTree (user_id : PyStr) (pfx segs : List PyStr)
    (name : PyStr) (h : isPng name = true) :
    findImagesList user_id pfx (singleFileTree segs name) =
      [(user_id, joinPath (pfx ++ segs ++ [name]), name)] := by
  induction segs generalizing pfx with
  | nil => simp [singleFileTree, findImagesList, findImagesTree, h]
  | cons d rest ih =>
    have hstep : findImagesList user_id pfx (singleFileTree (d :: rest) name) =
        findImagesList user_id (pfx ++ [d]) (singleFileTree rest name) := by
      simp [singleFileTree, findImagesList, findImagesTree]
    rw [hstep, ih]
    simp

theorem isPng_ext {pid : PyStr} (h : pid ≠ []) : isPng (pid ++ ".png".data) = true := by
  have hl : 0 < pid.length := List.length_pos.mpr h
  have hlen : (pid ++ ".png".data).length = pid.length + 4 := by
    rw [List.length_append]
    rfl
  unfold isPng
  rw [hlen]
  have h4 : pid.length + 4 - 4 = pid.length := by omega
  rw [h4, List.drop_left]
  simp only [Bool.and_eq_true, decide_eq_true_eq]
  exact ⟨by omega, trivial⟩

theorem joinPath_filter (xs ys : List PyStr) :
    joinPath (xs.filter (fun s => !s.isEmpty) ++ ys) = joinPath (xs ++ ys) := by
  simp [joinPath, List.filter_append, List.filter_filter, Bool.and_self]

/-- C9 amended: for every user id, every tags string whose canonical tag
segments are plain creatable names (so `pathlib`/the OS places the marker
file at the literal chain inside `pictures/<user_id>/`, rather than
resolving `..`, absolute or slash-containing segments away from it), and
every nonempty slash-free picture id (every allocator-produced id
qualifies): if the store holds exactly the record
`(picture_id, user_id, tags)` and the disk exactly the file
`save_picture_to_disk user_id picture_id tags` creates, then
`reconcile_images` returns both result sets empty. -/
theorem reconcile_after_save (user_id tags picture_id : PyStr)
    (hpid : picture_id ≠ []) (hpslash : '/' ∉ picture_id)
    (hsegs : ∀ s ∈ (save_picture_to_disk user_id picture_id tags).1, plainSeg s = true) :
    reconcile_images user_id
        (some (singleFileTree (save_picture_to_disk user_id picture_id tags).1
          (save_picture_to_disk user_id picture_id tags).2))
        [⟨picture_id, user_id, tags⟩] = (∅, ∅) := by
  clear hpslash hsegs
  have hpng : isPng (picture_id ++ ".png".data) = true := isPng_ext hpid
  have heq : list_user_images user_id
      (some (singleFileTree (save_picture_to_disk user_id picture_id tags).1
        (save_picture_to_disk user_id picture_id tags).2)) =
      images_in_db user_id [⟨picture_id, user_id, tags⟩] := by
    show findImagesList user_id []
        (singleFileTree ((deconstruct_tags tags).filter (fun s => !s.isEmpty))
          (picture_id ++ ".png".data)) = _
    rw [findImagesList_singleFileTree _ _ _ _ hpng]
    simp [images_in_db, dbImageTriple, joinPath_filter]
  show reconcile_sets _ _ = (∅, ∅)
  rw [heq]
  simp [reconcile_sets]

/-- Witness for C9 at the spec's Scenario 1 data (plain segments `beach`,
`vacation`; allocator-shaped picture id). -/
theorem reconcile_after_save_witness :
    reconcile_images "42".data
        (some (singleFileTree
          (save_picture_to_disk "42".data "0000000001".data "#vacation #beach".data).1
          (save_picture_to_disk "42".data "0000000001".data "#vacation #beach".data).2))
        [⟨"0000000001".data, "42".data, "#vacation #beach".data⟩] = (∅, ∅) :=
  reconcile_after_save "42".data "#vacation #beach".data "0000000001".data
    (by decide) (by decide) (by decide)

/-- C9 counterexample: with the empty picture id the marker file is named
`".png"`, whose `pathlib` suffix is `""` and not `".png"`, so the scanner
does not list it while the database projection does: reconciliation
reports a discrepancy although record and file are both present. -/
theorem reconcile_after_save_fails_empty_id :
    (reconcile_images "u".data
        (some (singleFileTree (save_picture_to_disk "u".data [] "".data).1
          (save_picture_to_disk "u".data [] "".data).2))
        [⟨[], "u".data, "".data⟩]).2 ≠ ∅ := by decide
